import Mathlib

/-!
Verification development for the sentinel productivity CLI.

The repository keeps denormalized secondary indexes (task index, session
index) in sync with task/session records stored as JSON documents, and
aggregates them for reviews.  This file shallowly embeds the index and
aggregation subsystem:

* pure TypeScript functions become Lean functions;
* JavaScript objects used as string-keyed maps of id lists
  (`{ [key: string]: string[] }`) become total functions
  `String → List String`, with the absent key reading as `[]` — this is
  exactly the `?? []` convention used at every read site of the source;
* the day-string normalization `new Date(ts).toDateString()` is an
  external, locale-dependent collaborator and is passed in as an
  explicit parameter `dayOf : Int → String`;
* millisecond timestamps are `Int` (JavaScript numbers are exact on this
  range);
* the single-file document store touched by `loadWithDefault` is an
  `Option String` (file contents, `none` = absent), and the JSON parser
  is an explicit parameter, since `JSON.parse` is an external
  collaborator.
-/

namespace Sentinel

/-- `Task` record, from `utils.ts` (`export type Task`). -/
structure Task where
  id : String
  description : String
  isDone : Bool
  created : Int
  projectName : Option String
  completed : Option Int
deriving DecidableEq, Repr

/-- `Session` record, from `utils.ts` (`export type Session`). -/
structure Session where
  id : String
  projectName : String
  focus : String
  sessionStart : Int
  sessionEnd : Option Int
deriving DecidableEq, Repr

/-- `TaskIndex`, from `tasks.ts` / `utils.ts`.  The three map-shaped
fields are total functions with absent buckets reading as `[]`. -/
structure TaskIndex where
  all : List String
  inbox : List String
  incomplete : List String
  byProject : String → List String
  byCreationDate : String → List String
  byCompletionDate : String → List String

/-- `INITIAL_INDEX` for tasks: all lists and maps empty. -/
def emptyTaskIndex : TaskIndex :=
  { all := [], inbox := [], incomplete := []
    byProject := fun _ => [], byCreationDate := fun _ => []
    byCompletionDate := fun _ => [] }

/-- `without` from `tasks.ts`: `list.filter((candidate) => candidate != item)`. -/
def without (list : List String) (item : String) : List String :=
  list.filter (fun candidate => candidate ≠ item)

/-- `indexTask` from `tasks.ts` (lines 296–327).  Each field records the
effect of the corresponding assignment: prepend `id` to `all`; prepend to
`byProject[projectName]` when a project is set, else to `inbox`; prepend
to `incomplete` unless done; prepend to `byCreationDate[dayOf created]`;
prepend to `byCompletionDate[dayOf completed]` when completed is set. -/
def indexTask (dayOf : Int → String) (t : Task) (index : TaskIndex) : TaskIndex where
  all := t.id :: index.all
  inbox :=
    match t.projectName with
    | none => t.id :: index.inbox
    | some _ => index.inbox
  incomplete := if t.isDone then index.incomplete else t.id :: index.incomplete
  byProject := fun k =>
    match t.projectName with
    | some p => if k = p then t.id :: index.byProject k else index.byProject k
    | none => index.byProject k
  byCreationDate := fun k =>
    if k = dayOf t.created then t.id :: index.byCreationDate k else index.byCreationDate k
  byCompletionDate := fun k =>
    match t.completed with
    | some c => if k = dayOf c then t.id :: index.byCompletionDate k else index.byCompletionDate k
    | none => index.byCompletionDate k

/-- `deindexTask` from `tasks.ts` (lines 278–294): remove `t.id` by value
from every list; the `for key in` loops apply `without` to every present
bucket, and an absent bucket is `[]` with `without [] id = []`, so the
maps are filtered pointwise. -/
def deindexTask (t : Task) (index : TaskIndex) : TaskIndex where
  all := without index.all t.id
  inbox := without index.inbox t.id
  incomplete := without index.incomplete t.id
  byProject := fun k => without (index.byProject k) t.id
  byCreationDate := fun k => without (index.byCreationDate k) t.id
  byCompletionDate := fun k => without (index.byCompletionDate k) t.id

/-- `reindexTask` from `tasks.ts` (lines 273–276): deindex, then index. -/
def reindexTask (dayOf : Int → String) (t : Task) (index : TaskIndex) : TaskIndex :=
  indexTask dayOf t (deindexTask t index)

/-- The toggle performed by `toggleTasks` (`tasks.ts` lines 258–262):
`task.isDone = !task.isDone; task.completed = task.isDone ? Date.now() : undefined`. -/
def toggleTask (now : Int) (t : Task) : Task :=
  { t with isDone := !t.isDone, completed := if !t.isDone then some now else none }

/-- `SessionIndex`, from `sessions.ts` / `utils.ts`. -/
structure SessionIndex where
  byProject : String → List String
  byDate : String → List String
  ordered : List String

/-- `INITIAL_INDEX` for sessions. -/
def emptySessionIndex : SessionIndex :=
  { byProject := fun _ => [], byDate := fun _ => [], ordered := [] }

/-- `addToIndex` from `sessions.ts` (lines 71–88), identical in
`src/unnamed/part_000` (lines 33–50): append `session.id` to
`byProject[projectName]`, to `byDate[dayOf sessionStart]`, and to
`ordered`. -/
def addToIndex (dayOf : Int → String) (s : Session) (index : SessionIndex) : SessionIndex where
  byProject := fun k =>
    if k = s.projectName then index.byProject k ++ [s.id] else index.byProject k
  byDate := fun k =>
    if k = dayOf s.sessionStart then index.byDate k ++ [s.id] else index.byDate k
  ordered := index.ordered ++ [s.id]

/-- `addToIndex` from `sentinel.ts` (lines 163–180), the early revision:
line 173 builds the new `byDate` bucket from
`index.byProject[formattedStartDate] ?? []` — reading the already-updated
`byProject` map — instead of from `index.byDate[formattedStartDate]`. -/
def addToIndexLegacy (dayOf : Int → String) (s : Session) (index : SessionIndex) : SessionIndex :=
  let bp : String → List String := fun k =>
    if k = s.projectName then index.byProject k ++ [s.id] else index.byProject k
  { byProject := bp
    byDate := fun k =>
      if k = dayOf s.sessionStart then bp (dayOf s.sessionStart) ++ [s.id] else index.byDate k
    ordered := index.ordered ++ [s.id] }

/-- `sumDuration` from `src/unnamed/part_001` (lines 456–462):
`sessions.reduce((acc, {sessionEnd, sessionStart}) => acc + (sessionEnd ?? Date.now()) - sessionStart, 0)`.
`Date.now()` is passed in as `now`. -/
def sumDuration (now : Int) (sessions : List Session) : Int :=
  sessions.foldl (fun acc s => acc + (s.sessionEnd.getD now) - s.sessionStart) 0

/-- `formatDuration` from `src/unnamed/part_001` (lines 411–415).
`Math.floor` of a real division is `Int.fdiv`; the JavaScript `%`
operator is the truncating remainder `Int.tmod` (for the nonnegative
durations that occur the two agree with `/` and `%` on `Nat`). -/
def formatDuration (duration : Int) : String :=
  toString (duration.fdiv 3600000) ++ "h " ++
    toString ((duration.tmod 3600000).fdiv 60000) ++ "m " ++
    toString ((duration.tmod 60000).fdiv 1000) ++ "s"

/-- `formatSessionDuration` from `sessions.ts` (lines 115–121):
format `(sessionEnd ?? Date.now()) - sessionStart`. -/
def formatSessionDuration (now : Int) (s : Session) : String :=
  formatDuration ((s.sessionEnd.getD now) - s.sessionStart)

/-- The JavaScript `String.prototype.endsWith` test used by the catch
branch of `loadWithDefault`, as a suffix test on character lists. -/
def endsWithSuffix (s post : String) : Bool :=
  post.data.isSuffixOf s.data

/-- `loadWithDefault` from `utils.ts` (lines 17–32), over a single file.
`file` is the stored contents (`none` = file absent); `ensureFile`
materializes an absent file as the empty string (`file.getD ""`, the
`contents` the parser then sees); `readJson` is the external parser
`parse` (its JSON value printed back by `print` when `writeJson`
persists the default).  The result pairs what is returned/thrown
(`Except`) with the file contents afterwards.  The catch branch tests
whether the error message ends with "Unexpected end of JSON input",
exactly as the source does. -/
def loadWithDefault {α : Type} (parse : String → Except String α) (print : α → String)
    (defaultValue : α) (file : Option String) : Except String α × String :=
  match parse (file.getD "") with
  | .ok value => (.ok value, file.getD "")
  | .error e =>
      if endsWithSuffix e "Unexpected end of JSON input" then
        (.ok defaultValue, print defaultValue)
      else
        (.error e, file.getD "")

/-- Model of the external `JSON.parse` collaborator on the inputs used
here: V8 raises a SyntaxError whose message is
"Unexpected end of JSON input" both for the empty string and for
truncated JSON such as a lone opening brace "\x7b"; a complete JSON
string parses.  (Deno std `readJson` additionally prefixes the path to
the message, which is why the source matches by `endsWith`; the suffix
test is unaffected, so the prefix is omitted.) -/
def jsonParseModel : String → Except String String := fun s =>
  if s = "" ∨ s = "\x7b" then .error "Unexpected end of JSON input" else .ok s

end Sentinel

namespace Sentinel

/-- What `deindexTask` must do to one list per C6: the removed id is
gone, the survivors keep their relative order (sublist), and every other
id keeps its multiplicity. -/
def removedKeeping (i : String) (old new : List String) : Prop :=
  i ∉ new ∧ new.Sublist old ∧ ∀ x, x ≠ i → new.count x = old.count x

theorem without_removedKeeping (l : List String) (i : String) :
    removedKeeping i l (without l i) := by
  refine ⟨by simp [without], List.filter_sublist l, ?_⟩
  intro x hx
  unfold without
  rw [List.count_filter (by simpa using hx)]

/-- C6: `deindexTask` removes every entry equal to `task.id` from all six
index structures and nothing else — other entries keep their relative
order and multiplicity under the same bucket keys. -/
theorem deindexTask_removes_id_only (t : Task) (idx : TaskIndex) :
    removedKeeping t.id idx.all (deindexTask t idx).all ∧
    removedKeeping t.id idx.inbox (deindexTask t idx).inbox ∧
    removedKeeping t.id idx.incomplete (deindexTask t idx).incomplete ∧
    (∀ k, removedKeeping t.id (idx.byProject k) ((deindexTask t idx).byProject k)) ∧
    (∀ k, removedKeeping t.id (idx.byCreationDate k) ((deindexTask t idx).byCreationDate k)) ∧
    (∀ k, removedKeeping t.id (idx.byCompletionDate k) ((deindexTask t idx).byCompletionDate k)) :=
  ⟨without_removedKeeping _ _, without_removedKeeping _ _, without_removedKeeping _ _,
    fun _ => without_removedKeeping _ _, fun _ => without_removedKeeping _ _,
    fun _ => without_removedKeeping _ _⟩

/-- Witness for C6 at a concrete task and index. -/
theorem deindexTask_removes_id_only_witness :
    ("a" ∉ (deindexTask
        { id := "a", description := "d", isDone := false, created := 0,
          projectName := none, completed := none }
        { emptyTaskIndex with all := ["b", "a", "c"] }).all) ∧
    ((deindexTask
        { id := "a", description := "d", isDone := false, created := 0,
          projectName := none, completed := none }
        { emptyTaskIndex with all := ["b", "a", "c"] }).all.count "b" = (["b", "a", "c"] : List String).count "b") :=
  ⟨(deindexTask_removes_id_only _ _).1.1,
    (deindexTask_removes_id_only _ { emptyTaskIndex with all := ["b", "a", "c"] }).1.2.2 "b" (by decide)⟩

theorem sumDuration_eq_sum (now : Int) (sessions : List Session) :
    sumDuration now sessions =
      (sessions.map (fun s => (s.sessionEnd.getD now) - s.sessionStart)).sum := by
  suffices h : ∀ (l : List Session) (a : Int),
      l.foldl (fun acc s => acc + (s.sessionEnd.getD now) - s.sessionStart) a =
        a + (l.map (fun s => (s.sessionEnd.getD now) - s.sessionStart)).sum by
    simpa [sumDuration] using h sessions 0
  intro l
  induction l with
  | nil => simp
  | cons s rest ih => intro a; simp [ih]; ring

/-- C7: `sumDuration` sums `(sessionEnd ?? now) - sessionStart` over the
list, and over ended sessions it is additive across concatenation even
when the calls happen at different times. -/
theorem sumDuration_spec :
    (∀ (now : Int) (sessions : List Session),
      sumDuration now sessions =
        (sessions.map (fun s => (s.sessionEnd.getD now) - s.sessionStart)).sum) ∧
    (∀ (now n₁ n₂ : Int) (l₁ l₂ : List Session),
      (∀ s ∈ l₁, s.sessionEnd.isSome = true) → (∀ s ∈ l₂, s.sessionEnd.isSome = true) →
      sumDuration now (l₁ ++ l₂) = sumDuration n₁ l₁ + sumDuration n₂ l₂) := by
  refine ⟨sumDuration_eq_sum, ?_⟩
  intro now n₁ n₂ l₁ l₂ h₁ h₂
  have key : ∀ (m m' : Int) (l : List Session), (∀ s ∈ l, s.sessionEnd.isSome = true) →
      sumDuration m l = sumDuration m' l := by
    intro m m' l hl
    rw [sumDuration_eq_sum, sumDuration_eq_sum]
    congr 1
    refine List.map_congr_left ?_
    intro s hs
    rcases hends : s.sessionEnd with _ | v
    · exact absurd (hends ▸ hl s hs) (by simp)
    · simp
  rw [sumDuration_eq_sum now, List.map_append, List.sum_append,
    ← sumDuration_eq_sum now l₁, ← sumDuration_eq_sum now l₂,
    key now n₁ l₁ h₁, key now n₂ l₂ h₂]

/-- Witness for C7 at two concrete ended sessions. -/
theorem sumDuration_spec_witness :
    sumDuration 99
        ([{ id := "s1", projectName := "p", focus := "f", sessionStart := 0, sessionEnd := some 10 }] ++
         [{ id := "s2", projectName := "q", focus := "g", sessionStart := 5, sessionEnd := some 25 }]) =
      sumDuration 7
        [{ id := "s1", projectName := "p", focus := "f", sessionStart := 0, sessionEnd := some 10 }] +
      sumDuration 8
        [{ id := "s2", projectName := "q", focus := "g", sessionStart := 5, sessionEnd := some 25 }] :=
  sumDuration_spec.2 99 7 8 _ _ (by decide) (by decide)

/-- C9: the sample session (start 0, end 5425000) formats as
"1h 30m 25s", and in general a duration of `h` hours, `m` minutes,
`s` seconds (and sub-second remainder `r`) renders as "{h}h {m}m {s}s". -/
theorem formatDuration_spec :
    (formatSessionDuration 0
        { id := "s1", projectName := "p", focus := "f",
          sessionStart := 0, sessionEnd := some 5425000 } = "1h 30m 25s") ∧
    (∀ h m s r : Int, 0 ≤ h → 0 ≤ m → m < 60 → 0 ≤ s → s < 60 → 0 ≤ r → r < 1000 →
      formatDuration (h * 3600000 + m * 60000 + s * 1000 + r) =
        toString h ++ "h " ++ toString m ++ "m " ++ toString s ++ "s") := by
  constructor
  · rfl
  · intro h m s r hh hm0 hm hs0 hs hr0 hr
    have hd : 0 ≤ h * 3600000 + m * 60000 + s * 1000 + r := by positivity
    unfold formatDuration
    rw [Int.fdiv_eq_ediv _ (by norm_num), Int.tmod_eq_emod hd (by norm_num),
      Int.tmod_eq_emod hd (by norm_num),
      Int.fdiv_eq_ediv _ (by norm_num), Int.fdiv_eq_ediv _ (by norm_num)]
    have e1 : (h * 3600000 + m * 60000 + s * 1000 + r) / 3600000 = h := by omega
    have e2 : (h * 3600000 + m * 60000 + s * 1000 + r) % 3600000 / 60000 = m := by omega
    have e3 : (h * 3600000 + m * 60000 + s * 1000 + r) % 60000 / 1000 = s := by omega
    rw [e1, e2, e3]

/-- Witness for C9's general clause at 1h 30m 25s exactly. -/
theorem formatDuration_spec_witness :
    formatDuration (1 * 3600000 + 30 * 60000 + 25 * 1000 + 0) =
      toString (1 : Int) ++ "h " ++ toString (30 : Int) ++ "m " ++ toString (25 : Int) ++ "s" :=
  formatDuration_spec.2 1 30 25 0 (by norm_num) (by norm_num) (by norm_num) (by norm_num)
    (by norm_num) (by norm_num) (by norm_num)

end Sentinel

namespace Sentinel

/-- C3: for the current `addToIndex` (`sessions.ts`, `src/unnamed/part_000`),
indexing a session appends its id to the end of `ordered`, of
`byProject[projectName]`, and of the existing `byDate` bucket for the
start day, leaving every other bucket unchanged; and, at a concrete
failing input, the early `sentinel.ts` revision instead rebuilds the
`byDate` bucket from `byProject`, losing the existing entry "s0". -/
theorem addToIndex_appends :
    (∀ (dayOf : Int → String) (s : Session) (idx : SessionIndex),
      ((addToIndex dayOf s idx).ordered = idx.ordered ++ [s.id]) ∧
      ((addToIndex dayOf s idx).byProject s.projectName =
        idx.byProject s.projectName ++ [s.id]) ∧
      ((addToIndex dayOf s idx).byDate (dayOf s.sessionStart) =
        idx.byDate (dayOf s.sessionStart) ++ [s.id]) ∧
      (∀ k, k ≠ s.projectName → (addToIndex dayOf s idx).byProject k = idx.byProject k) ∧
      (∀ k, k ≠ dayOf s.sessionStart → (addToIndex dayOf s idx).byDate k = idx.byDate k)) ∧
    ((addToIndexLegacy (fun _ => "Thu Jan 01 1970")
        { id := "s1", projectName := "p", focus := "f", sessionStart := 0, sessionEnd := none }
        { byProject := fun _ => []
          byDate := fun k => if k = "Thu Jan 01 1970" then ["s0"] else []
          ordered := ["s0"] }).byDate "Thu Jan 01 1970" = ["s1"] ∧
      (addToIndex (fun _ => "Thu Jan 01 1970")
        { id := "s1", projectName := "p", focus := "f", sessionStart := 0, sessionEnd := none }
        { byProject := fun _ => []
          byDate := fun k => if k = "Thu Jan 01 1970" then ["s0"] else []
          ordered := ["s0"] }).byDate "Thu Jan 01 1970" = ["s0", "s1"]) := by
  constructor
  · intro dayOf s idx
    refine ⟨rfl, ?_, ?_, ?_, ?_⟩
    · simp [addToIndex]
    · simp [addToIndex]
    · intro k hk; simp [addToIndex, hk]
    · intro k hk; simp [addToIndex, hk]
  · constructor
    · simp [addToIndexLegacy]
    · simp [addToIndex]

/-- Witness for C3 at a concrete session, prior index, and other keys. -/
theorem addToIndex_appends_witness :
    ((addToIndex (fun _ => "day")
        { id := "s1", projectName := "p", focus := "f", sessionStart := 0, sessionEnd := none }
        { emptySessionIndex with ordered := ["s0"] }).ordered = ["s0"] ++ ["s1"]) ∧
    ((addToIndex (fun _ => "day")
        { id := "s1", projectName := "p", focus := "f", sessionStart := 0, sessionEnd := none }
        { emptySessionIndex with ordered := ["s0"] }).byProject "q" =
      ({ emptySessionIndex with ordered := ["s0"] } : SessionIndex).byProject "q") :=
  ⟨(addToIndex_appends.1 (fun _ => "day") _ _).1,
    (addToIndex_appends.1 (fun _ => "day") _ _).2.2.2.1 "q" (by decide)⟩

/-- C5 counterexample: the file "\x7b" is non-empty and fails to parse,
yet `loadWithDefault` does not propagate the error — it overwrites the
file with the default and returns it, because the handler matches the
error message suffix, not emptiness of the file. -/
theorem loadWithDefault_nonempty_overwrite :
    ("\x7b" ≠ "") ∧
    jsonParseModel "\x7b" = .error "Unexpected end of JSON input" ∧
    loadWithDefault jsonParseModel id "default" (some "\x7b") = (.ok "default", "default") := by
  refine ⟨by decide, rfl, ?_⟩
  simp [loadWithDefault, jsonParseModel]
  decide

/-- C5 amended: `loadWithDefault` keys on the parse error message — any
failure whose message ends with "Unexpected end of JSON input" (the empty
file, but also truncated JSON) yields and persists the default; every
other parse error propagates unchanged with the file contents untouched. -/
theorem loadWithDefault_error_handling {α : Type} (parse : String → Except String α)
    (print : α → String) (dv : α) (file : Option String) (e : String)
    (hp : parse (file.getD "") = .error e) :
    (endsWithSuffix e "Unexpected end of JSON input" = true →
      loadWithDefault parse print dv file = (.ok dv, print dv)) ∧
    (endsWithSuffix e "Unexpected end of JSON input" = false →
      loadWithDefault parse print dv file = (.error e, file.getD "")) := by
  constructor <;> intro h <;> simp [loadWithDefault, hp, h]

/-- Witness for C5's amended theorem: the completely empty file yields
and persists the default. -/
theorem loadWithDefault_error_handling_witness :
    loadWithDefault jsonParseModel id "d" (some "") = (.ok "d", "d") :=
  (loadWithDefault_error_handling jsonParseModel id "d" (some "")
    "Unexpected end of JSON input" rfl).1 (by decide)

end Sentinel

namespace Sentinel

theorem taskIndexEq {a b : TaskIndex} (h1 : a.all = b.all) (h2 : a.inbox = b.inbox)
    (h3 : a.incomplete = b.incomplete) (h4 : a.byProject = b.byProject)
    (h5 : a.byCreationDate = b.byCreationDate) (h6 : a.byCompletionDate = b.byCompletionDate) :
    a = b := by
  cases a; cases b; simp_all

theorem without_cons_self (l : List String) (i : String) :
    without (i :: l) i = without l i := by
  simp [without]

theorem without_without (l : List String) (i : String) :
    without (without l i) i = without l i := by
  simp [without, List.filter_filter]

/-- Deindexing immediately after indexing the same task collapses to a
single deindex: the one prepended copy of the id is filtered right back
out. -/
theorem deindexTask_indexTask (dayOf : Int → String) (t : Task) (idx : TaskIndex) :
    deindexTask t (indexTask dayOf t idx) = deindexTask t idx := by
  apply taskIndexEq
  · exact without_cons_self _ _
  · rcases hp : t.projectName with _ | p <;>
      simp [deindexTask, indexTask, hp, without_cons_self]
  · rcases hd : t.isDone <;> simp [deindexTask, indexTask, hd, without_cons_self]
  · funext k
    rcases hp : t.projectName with _ | p
    · simp [deindexTask, indexTask, hp]
    · by_cases hk : k = p <;> simp [deindexTask, indexTask, hp, hk, without_cons_self]
  · funext k
    by_cases hk : k = dayOf t.created <;>
      simp [deindexTask, indexTask, hk, without_cons_self]
  · funext k
    rcases hc : t.completed with _ | c
    · simp [deindexTask, indexTask, hc]
    · by_cases hk : k = dayOf c <;> simp [deindexTask, indexTask, hc, hk, without_cons_self]

/-- Deindexing is idempotent. -/
theorem deindexTask_deindexTask (t : Task) (idx : TaskIndex) :
    deindexTask t (deindexTask t idx) = deindexTask t idx := by
  apply taskIndexEq <;>
    first
      | exact without_without _ _
      | · funext k; exact without_without _ _

/-- C2: applying `reindexTask` twice with the same task field values
produces exactly the same index — all six structures — as applying it
once. -/
theorem reindexTask_idempotent (dayOf : Int → String) (t : Task) (idx : TaskIndex) :
    reindexTask dayOf t (reindexTask dayOf t idx) = reindexTask dayOf t idx := by
  unfold reindexTask
  rw [deindexTask_indexTask, deindexTask_deindexTask]

end Sentinel

namespace Sentinel

/-- The on-disk state task creation touches: one record document per
task id (`tasks/<id>.json`) and the task index document
(`tasks/index.json`). -/
structure TaskDisk where
  docs : String → Option Task
  index : TaskIndex

/-- Fresh storage: no record documents, `INITIAL_INDEX`. -/
def emptyTaskDisk : TaskDisk :=
  { docs := fun _ => none, index := emptyTaskIndex }

/-- `writeTask` from `tasks.ts` (lines 329–333): `ensureFile` +
`writeJson` make the record document appear at the task's path. -/
def writeTaskDoc (t : Task) (d : TaskDisk) : TaskDisk :=
  { d with docs := fun k => if k = t.id then some t else d.docs k }

/-- The index write performed by `modifyTaskIndex(indexTask(task))`
(`utils.ts` lines 287–295): load the index document, apply `indexTask`
in memory, write the index document back — one on-disk change. -/
def writeIndexDoc (dayOf : Int → String) (t : Task) (d : TaskDisk) : TaskDisk :=
  { d with index := indexTask dayOf t d.index }

/-- `saveTask` from `tasks.ts` (lines 335–350): the on-disk states while
creating a task — initial, after `modifyTaskIndex(indexTask(task))`,
after `writeTask(task)`.  The source performs the index write first. -/
def saveTaskStates (dayOf : Int → String) (t : Task) (d : TaskDisk) : List TaskDisk :=
  [d, writeIndexDoc dayOf t d, writeTaskDoc t (writeIndexDoc dayOf t d)]

/-- An id is present somewhere in a task index. -/
def memTaskIndex (idx : TaskIndex) (i : String) : Prop :=
  i ∈ idx.all ∨ i ∈ idx.inbox ∨ i ∈ idx.incomplete ∨
    (∃ k, i ∈ idx.byProject k) ∨ (∃ k, i ∈ idx.byCreationDate k) ∨
    (∃ k, i ∈ idx.byCompletionDate k)

theorem memTaskIndex_indexTask {dayOf : Int → String} {t : Task} {idx : TaskIndex} {i : String}
    (h : memTaskIndex (indexTask dayOf t idx) i) : i = t.id ∨ memTaskIndex idx i := by
  unfold memTaskIndex at h ⊢
  rcases h with h | h | h | ⟨k, hk⟩ | ⟨k, hk⟩ | ⟨k, hk⟩
  · simp only [indexTask, List.mem_cons] at h
    tauto
  · rcases hp : t.projectName with _ | p <;> simp only [indexTask, hp, List.mem_cons] at h <;> tauto
  · rcases hd : t.isDone <;> simp [indexTask, hd] at h <;> tauto
  · rcases hp : t.projectName with _ | p <;> simp only [indexTask, hp] at hk
    · exact .inr (.inr (.inr (.inr (.inl ⟨k, hk⟩))))
    · split at hk
      · simp only [List.mem_cons] at hk
        rcases hk with hk | hk
        · tauto
        · exact .inr (.inr (.inr (.inr (.inl ⟨k, hk⟩))))
      · exact .inr (.inr (.inr (.inr (.inl ⟨k, hk⟩))))
  · simp only [indexTask] at hk
    split at hk
    · simp only [List.mem_cons] at hk
      rcases hk with hk | hk
      · tauto
      · exact .inr (.inr (.inr (.inr (.inr (.inl ⟨k, hk⟩)))))
    · exact .inr (.inr (.inr (.inr (.inr (.inl ⟨k, hk⟩)))))
  · rcases hc : t.completed with _ | c <;> simp only [indexTask, hc] at hk
    · exact .inr (.inr (.inr (.inr (.inr (.inr ⟨k, hk⟩)))))
    · split at hk
      · simp only [List.mem_cons] at hk
        rcases hk with hk | hk
        · tauto
        · exact .inr (.inr (.inr (.inr (.inr (.inr ⟨k, hk⟩)))))
      · exact .inr (.inr (.inr (.inr (.inr (.inr ⟨k, hk⟩)))))

theorem mem_without {l : List String} {i j : String} (h : i ∈ without l j) : i ∈ l :=
  List.mem_of_mem_filter h

theorem not_mem_without_self (l : List String) (i : String) : i ∉ without l i := by
  simp [without]

theorem memTaskIndex_deindexTask {t : Task} {idx : TaskIndex} {i : String}
    (h : memTaskIndex (deindexTask t idx) i) : memTaskIndex idx i := by
  unfold memTaskIndex at h ⊢
  unfold deindexTask at h
  rcases h with h | h | h | ⟨k, hk⟩ | ⟨k, hk⟩ | ⟨k, hk⟩
  · exact .inl (mem_without h)
  · exact .inr (.inl (mem_without h))
  · exact .inr (.inr (.inl (mem_without h)))
  · exact .inr (.inr (.inr (.inl ⟨k, mem_without hk⟩)))
  · exact .inr (.inr (.inr (.inr (.inl ⟨k, mem_without hk⟩))))
  · exact .inr (.inr (.inr (.inr (.inr ⟨k, mem_without hk⟩))))

theorem not_memTaskIndex_deindexTask (t : Task) (idx : TaskIndex) :
    ¬ memTaskIndex (deindexTask t idx) t.id := by
  unfold memTaskIndex deindexTask
  rintro (h | h | h | ⟨k, hk⟩ | ⟨k, hk⟩ | ⟨k, hk⟩) <;>
    first
      | exact not_mem_without_self _ _ h
      | exact not_mem_without_self _ _ hk

/-- C4 counterexample: starting from fresh storage, the state reached
after `saveTask`'s index write — an intermediate point of the create
operation — has the new task's id in the on-disk index while its record
document does not exist yet (the source writes the index first). -/
theorem saveTask_intermediate_inconsistent :
    (writeIndexDoc (fun _ => "day")
        { id := "a", description := "d", isDone := false, created := 0,
          projectName := none, completed := none } emptyTaskDisk)
      ∈ saveTaskStates (fun _ => "day")
        { id := "a", description := "d", isDone := false, created := 0,
          projectName := none, completed := none } emptyTaskDisk ∧
    memTaskIndex (writeIndexDoc (fun _ => "day")
        { id := "a", description := "d", isDone := false, created := 0,
          projectName := none, completed := none } emptyTaskDisk).index "a" ∧
    (writeIndexDoc (fun _ => "day")
        { id := "a", description := "d", isDone := false, created := 0,
          projectName := none, completed := none } emptyTaskDisk).docs "a" = none := by
  refine ⟨by simp [saveTaskStates], .inl ?_, rfl⟩
  simp [writeIndexDoc, indexTask, emptyTaskDisk, emptyTaskIndex]

/-- C4 amended: `saveTask` writes the index insert first and the record
document second.  From a consistent initial disk: every id other than
the new task's keeps a record document throughout; at the intermediate
state the new id is indexed while its record document is still whatever
it was initially (not yet written); and the final state is consistent
again. -/
theorem saveTask_states_consistency (dayOf : Int → String) (t : Task) (d : TaskDisk)
    (h : ∀ i, memTaskIndex d.index i → (d.docs i).isSome = true) :
    (∀ s ∈ saveTaskStates dayOf t d, ∀ i, i ≠ t.id →
      memTaskIndex s.index i → (s.docs i).isSome = true) ∧
    memTaskIndex (writeIndexDoc dayOf t d).index t.id ∧
    (writeIndexDoc dayOf t d).docs t.id = d.docs t.id ∧
    (∀ i, memTaskIndex (writeTaskDoc t (writeIndexDoc dayOf t d)).index i →
      ((writeTaskDoc t (writeIndexDoc dayOf t d)).docs i).isSome = true) := by
  have hmid : ∀ i, i ≠ t.id → memTaskIndex (indexTask dayOf t d.index) i →
      (d.docs i).isSome = true := by
    intro i hi hm
    rcases memTaskIndex_indexTask hm with rfl | hm
    · exact absurd rfl hi
    · exact h i hm
  refine ⟨?_, .inl (by simp [writeIndexDoc, indexTask]), rfl, ?_⟩
  · intro s hs i hi hm
    simp only [saveTaskStates, List.mem_cons, List.mem_singleton, List.not_mem_nil,
      or_false] at hs
    rcases hs with rfl | rfl | rfl
    · exact h i hm
    · exact hmid i hi hm
    · have : (writeIndexDoc dayOf t d).docs i = d.docs i := by
        simp [writeTaskDoc, writeIndexDoc]
      simp only [writeTaskDoc]
      simp only [writeTaskDoc] at hm
      by_cases hk : i = t.id
      · exact absurd hk hi
      · simpa [hk] using hmid i hi hm
  · intro i hm
    by_cases hk : i = t.id
    · simp [writeTaskDoc, hk]
    · simp only [writeTaskDoc] at hm
      simpa [writeTaskDoc, hk] using hmid i hk hm

/-- Witness for C4's amended theorem from fresh storage. -/
theorem saveTask_states_consistency_witness :
    memTaskIndex (writeIndexDoc (fun _ => "day")
        { id := "a", description := "d", isDone := false, created := 0,
          projectName := none, completed := none } emptyTaskDisk).index "a" ∧
    ((writeTaskDoc
        { id := "a", description := "d", isDone := false, created := 0,
          projectName := none, completed := none }
        (writeIndexDoc (fun _ => "day")
          { id := "a", description := "d", isDone := false, created := 0,
            projectName := none, completed := none } emptyTaskDisk)).docs "a").isSome = true := by
  have h0 : ∀ i, memTaskIndex emptyTaskDisk.index i → (emptyTaskDisk.docs i).isSome = true := by
    intro i hi
    rcases hi with h | h | h | ⟨k, hk⟩ | ⟨k, hk⟩ | ⟨k, hk⟩ <;>
      simp [emptyTaskDisk, emptyTaskIndex] at *
  have hmain := saveTask_states_consistency (fun _ => "day")
    { id := "a", description := "d", isDone := false, created := 0,
      projectName := none, completed := none } emptyTaskDisk h0
  exact ⟨hmain.2.1, hmain.2.2.2 "a" hmain.2.1⟩

end Sentinel

namespace Sentinel

/-- A JavaScript object used as a string-keyed map of record lists: an
entry list in key insertion order (JS objects enumerate string keys in
insertion order, which `for key in` and spread copies preserve). -/
abbrev Grouped (α : Type) : Type := List (String × List α)

/-- Reading `obj[k]`: the value of the entry with key `k`, if present. -/
def lookupGroup {α : Type} (g : Grouped α) (k : String) : Option (List α) :=
  (g.find? (fun e => e.1 = k)).map (fun e => e.2)

/-- Reading `obj[k] ?? []`. -/
def bucketD {α : Type} (g : Grouped α) (k : String) : List α :=
  (lookupGroup g k).getD []

/-- The spread update `{...acc, [k]: v}`: an existing key keeps its
position and gets the new value; a new key is appended at the end. -/
def setKey {α : Type} (g : Grouped α) (k : String) (v : List α) : Grouped α :=
  if g.any (fun e => e.1 = k) then
    g.map (fun e => if e.1 = k then (e.1, v) else e)
  else
    g ++ [(k, v)]

/-- One `reduce` step of the grouping functions:
`{...acc, [key(x)]: [...(acc[key(x)] ?? []), x]}`. -/
def groupStep {α : Type} (key : α → String) (acc : Grouped α) (x : α) : Grouped α :=
  setKey acc (key x) (bucketD acc (key x) ++ [x])

def groupByKey {α : Type} (key : α → String) (xs : List α) : Grouped α :=
  xs.foldl (groupStep key) []

/-- Iterating `for key in obj` and concatenating the buckets
(`options = [...options, ...tasks[key]]`). -/
def flattenGroups {α : Type} (g : Grouped α) : List α :=
  g.foldl (fun acc e => acc ++ e.2) []

/-- The grouping key of `groupTasks`: `task.projectName ?? "inbox"`. -/
def taskKey (t : Task) : String := t.projectName.getD "inbox"

/-- `groupTasks` from `src/unnamed/part_001` (lines 322–331): `reduce`
over the tasks, appending each task to the bucket of its key. -/
def groupTasks (tasks : List Task) : Grouped Task := groupByKey taskKey tasks

/-- `groupSessions` from `src/unnamed/part_001` (lines 447–454), the
same fold keyed by `session.projectName`. -/
def groupSessions (sessions : List Session) : Grouped Session :=
  groupByKey Session.projectName sessions

/-- The duck-typed `TaskGroup | Task[]` argument of `flattenTasks`. -/
inductive TasksInput where
  | flat (tasks : List Task)
  | grouped (g : Grouped Task)

/-- `flattenTasks` from `src/unnamed/part_001` (lines 364–374): a plain
array is returned as-is; a group map is concatenated in key order. -/
def flattenTasks : TasksInput → List Task
  | .flat tasks => tasks
  | .grouped g => flattenGroups g

theorem flattenGroups_fold {α : Type} (g : Grouped α) (a : List α) :
    g.foldl (fun acc e => acc ++ e.2) a = a ++ flattenGroups g := by
  induction g generalizing a with
  | nil => simp [flattenGroups]
  | cons e g ih =>
      show List.foldl _ (a ++ e.2) g = a ++ List.foldl _ ([] ++ e.2) g
      rw [ih (a ++ e.2), ih ([] ++ e.2)]
      simp

theorem flattenGroups_cons {α : Type} (e : String × List α) (g : Grouped α) :
    flattenGroups (e :: g) = e.2 ++ flattenGroups g := by
  show List.foldl _ ([] ++ e.2) g = _
  rw [flattenGroups_fold]
  simp

theorem lookup_setKey {α : Type} (g : Grouped α) (k q : String) (v : List α) :
    lookupGroup (setKey g k v) q = if k = q then some v else lookupGroup g q := by
  unfold setKey lookupGroup
  by_cases hany : g.any (fun e => (e.1 = k : Bool)) = true
  · rw [if_pos hany, List.find?_map]
    have hpf : ((fun e : String × List α => (e.1 = q : Bool)) ∘
        (fun e : String × List α => if e.1 = k then (e.1, v) else e)) =
        fun e : String × List α => (e.1 = q : Bool) := by
      funext e
      by_cases he : e.1 = k <;> simp [he]
    rw [hpf]
    by_cases hkq : k = q
    · subst hkq
      rcases hf : g.find? (fun e => (e.1 = k : Bool)) with _ | e₀
      · rcases List.any_eq_true.mp hany with ⟨e, he, hek⟩
        rw [List.find?_eq_none] at hf
        exact absurd hek (hf e he)
      · have he₀ : e₀.1 = k := by simpa using List.find?_some hf
        simp [hf, he₀]
    · rcases hf : g.find? (fun e => (e.1 = q : Bool)) with _ | e₀
      · simp [hf, hkq]
      · have he₀ : e₀.1 = q := by simpa using List.find?_some hf
        have hne : ¬ e₀.1 = k := by rw [he₀]; exact fun h => hkq h.symm
        simp [hf, hkq, hne]
  · rw [if_neg hany, List.find?_append]
    by_cases hkq : k = q
    · subst hkq
      have hnone : g.find? (fun e => (e.1 = k : Bool)) = none := by
        rw [List.find?_eq_none]
        intro e he hek
        exact hany (List.any_eq_true.mpr ⟨e, he, hek⟩)
      simp [hnone, List.find?]
    · rcases hf : g.find? (fun e => (e.1 = q : Bool)) with _ | e₀ <;>
        simp [hf, List.find?, hkq, fun h : q = k => hkq h.symm]

theorem bucketD_setKey {α : Type} (g : Grouped α) (k q : String) (v : List α) :
    bucketD (setKey g k v) q = if k = q then v else bucketD g q := by
  unfold bucketD
  rw [lookup_setKey]
  by_cases hkq : k = q <;> simp [hkq]

/-- The bucket of the grouping fold at `q`, from any accumulator: the
accumulator's bucket extended by the `q`-keyed inputs in order. -/
theorem bucketD_foldl_groupStep {α : Type} (key : α → String) (xs : List α)
    (acc : Grouped α) (q : String) :
    bucketD (xs.foldl (groupStep key) acc) q =
      bucketD acc q ++ xs.filter (fun x => key x = q) := by
  induction xs generalizing acc with
  | nil => simp
  | cons x xs ih =>
      show bucketD (xs.foldl (groupStep key) (groupStep key acc x)) q = _
      rw [ih]
      unfold groupStep
      rw [bucketD_setKey]
      by_cases hq : key x = q
      · subst hq
        simp
      · rw [if_neg hq]
        simp [List.filter_cons, hq]

theorem bucketD_groupByKey {α : Type} (key : α → String) (xs : List α) (q : String) :
    bucketD (groupByKey key xs) q = xs.filter (fun x => key x = q) := by
  unfold groupByKey
  rw [bucketD_foldl_groupStep]
  simp [bucketD, lookupGroup]

/-- Well-formedness of a group map: every record sits in the bucket of
its own key, and keys are unique. -/
def WFGroup {α : Type} (key : α → String) (g : Grouped α) : Prop :=
  (∀ e ∈ g, ∀ x ∈ e.2, key x = e.1) ∧ (g.map Prod.fst).Nodup

theorem wfGroup_bucketD {α : Type} {key : α → String} {g : Grouped α}
    (hw : WFGroup key g) (k : String) : ∀ x ∈ bucketD g k, key x = k := by
  intro x hx
  unfold bucketD lookupGroup at hx
  rcases hf : g.find? (fun e => (e.1 = k : Bool)) with _ | e₀
  · rw [hf] at hx; simp at hx
  · rw [hf] at hx
    simp at hx
    have he₀ : e₀.1 = k := by simpa using List.find?_some hf
    exact he₀ ▸ hw.1 e₀ (List.mem_of_find?_eq_some hf) x hx

theorem wfGroup_groupStep {α : Type} {key : α → String} {g : Grouped α}
    (hw : WFGroup key g) (x : α) : WFGroup key (groupStep key g x) := by
  unfold groupStep setKey
  by_cases hany : g.any (fun e => (e.1 = key x : Bool)) = true
  · rw [if_pos hany]
    constructor
    · intro e he y hy
      rcases List.mem_map.mp he with ⟨e₀, he₀, rfl⟩
      by_cases hk : e₀.1 = key x
      · rw [if_pos hk] at hy ⊢
        simp only [List.mem_append, List.mem_singleton] at hy
        rcases hy with hy | rfl
        · exact (wfGroup_bucketD hw (key x) y hy).trans hk.symm
        · exact hk.symm
      · rw [if_neg hk] at hy ⊢
        exact hw.1 e₀ he₀ y hy
    · have hfst : (g.map fun e =>
          if e.1 = key x then (e.1, bucketD g (key x) ++ [x]) else e).map Prod.fst =
          g.map Prod.fst := by
        rw [List.map_map]
        refine List.map_congr_left ?_
        intro e _
        by_cases hk : e.1 = key x <;> simp [hk]
      rw [hfst]
      exact hw.2
  · rw [if_neg hany]
    have hknew : key x ∉ g.map Prod.fst := by
      intro hmem
      rcases List.mem_map.mp hmem with ⟨e, he, hke⟩
      exact hany (List.any_eq_true.mpr ⟨e, he, by simp [hke]⟩)
    constructor
    · intro e he y hy
      rcases List.mem_append.mp he with he | he
      · exact hw.1 e he y hy
      · rcases List.mem_singleton.mp he with rfl
        simp only [List.mem_append, List.mem_singleton] at hy
        rcases hy with hy | rfl
        · exact wfGroup_bucketD hw (key x) y hy
        · rfl
    · rw [List.map_append]
      simp only [List.map_cons, List.map_nil]
      rw [List.nodup_append]
      refine ⟨hw.2, List.nodup_singleton _, ?_⟩
      intro a ha hb
      simp only [List.mem_singleton] at hb
      exact hknew (hb ▸ ha)

theorem wfGroup_groupByKey {α : Type} (key : α → String) (xs : List α) :
    WFGroup key (groupByKey key xs) := by
  unfold groupByKey
  suffices h : ∀ acc, WFGroup key acc → WFGroup key (xs.foldl (groupStep key) acc) from
    h [] ⟨by simp, by simp⟩
  induction xs with
  | nil => intro acc hacc; exact hacc
  | cons x xs ih => intro acc hacc; exact ih _ (wfGroup_groupStep hacc x)

/-- Over a well-formed group map, filtering the flattening by a key
recovers exactly that key's bucket. -/
theorem filter_flattenGroups {α : Type} {key : α → String} {g : Grouped α}
    (hw : WFGroup key g) (q : String) :
    (flattenGroups g).filter (fun x => key x = q) = bucketD g q := by
  induction g with
  | nil => simp [flattenGroups, bucketD, lookupGroup]
  | cons e g ih =>
      have hw' : WFGroup key g :=
        ⟨fun e' he' => hw.1 e' (List.mem_cons_of_mem _ he'), (List.nodup_cons.mp hw.2).2⟩
      rw [flattenGroups_cons, List.filter_append, ih hw']
      by_cases hq : e.1 = q
      · have hself : e.2.filter (fun x => (key x = q : Bool)) = e.2 :=
          List.filter_eq_self.mpr fun x hx => by
            simp [hw.1 e (List.mem_cons_self e g) x hx, hq]
        have hnone : g.find? (fun e' => (e'.1 = q : Bool)) = none := by
          rw [List.find?_eq_none]
          intro e' he' h
          have h' : e'.1 = q := by simpa using h
          refine (List.nodup_cons.mp hw.2).1 ?_
          rw [hq, ← h']
          exact List.mem_map.mpr ⟨e', he', rfl⟩
        have hfind : (e :: g).find? (fun e' => (e'.1 = q : Bool)) = some e :=
          List.find?_cons_of_pos _ (by simpa using hq)
        simp [bucketD, lookupGroup, hfind, hnone, hself]
      · have hnil : e.2.filter (fun x => (key x = q : Bool)) = [] :=
          List.filter_eq_nil_iff.mpr fun x hx => by
            simp [hw.1 e (List.mem_cons_self e g) x hx, hq]
        have hcons : lookupGroup (e :: g) q = lookupGroup g q := by
          unfold lookupGroup
          rw [List.find?_cons_of_neg _ (by simpa using hq)]
        simp [bucketD, hcons, hnil]

/-- C10: flattening the grouping of a task list preserves, for every
group key, exactly the input's sub-list of tasks with that key — so each
task occurs exactly as often as in the input and same-key relative order
is preserved — and `flattenTasks` on a plain task list is the identity. -/
theorem flattenTasks_groupTasks_spec :
    (∀ (tasks : List Task) (k : String),
      (flattenTasks (.grouped (groupTasks tasks))).filter (fun t => taskKey t = k) =
        tasks.filter (fun t => taskKey t = k)) ∧
    (∀ (tasks : List Task) (t : Task),
      (flattenTasks (.grouped (groupTasks tasks))).count t = tasks.count t) ∧
    (∀ tasks : List Task, flattenTasks (.flat tasks) = tasks) := by
  have hfilter : ∀ (tasks : List Task) (k : String),
      (flattenTasks (.grouped (groupTasks tasks))).filter (fun t => taskKey t = k) =
        tasks.filter (fun t => taskKey t = k) := by
    intro tasks k
    show (flattenGroups (groupByKey taskKey tasks)).filter _ = _
    rw [filter_flattenGroups (wfGroup_groupByKey taskKey tasks) k, bucketD_groupByKey]
  refine ⟨hfilter, ?_, fun _ => rfl⟩
  intro tasks t
  have h1 : (flattenTasks (.grouped (groupTasks tasks))).count t =
      ((flattenTasks (.grouped (groupTasks tasks))).filter
        (fun x => taskKey x = taskKey t)).count t :=
    (List.count_filter (by simp)).symm
  rw [h1, hfilter tasks (taskKey t), List.count_filter (by simp)]

end Sentinel

namespace Sentinel

/-- `ReviewData` from `review.ts` (lines 124–128). -/
structure ReviewData where
  sessions : Grouped Session
  createdTasks : Grouped Task
  completedTasks : Grouped Task

/-- JavaScript truthiness of the optional `projectName` string, as used
by the ternary `projectName ? ... : ...` in `printReview` (the empty
string is falsy; `undefined` is falsy). -/
def strTruthy : Option String → Bool
  | none => false
  | some s => s ≠ ""

/-- `printReview` from `review.ts` (lines 161–220), modelled by the data
it presents: the sessions printed (with their count and total duration
taken from the same list), the created tasks printed, and the completed
tasks printed.  With a project name the source selects
`sessions[projectName] ?? []` (under the truthiness ternary) and
`createdTasks[projectName] ?? []` / `completedTasks[projectName] ?? []`
(under `projectName != null`); with no project name it presents the
whole groups in key order. -/
def printReviewModel (r : ReviewData) (projectName : Option String) :
    List Session × List Task × List Task :=
  let flatSessions :=
    if strTruthy projectName then bucketD r.sessions (projectName.getD "")
    else flattenGroups r.sessions
  (if projectName.isSome then flatSessions else flattenGroups r.sessions,
    if projectName.isSome then bucketD r.createdTasks (projectName.getD "")
      else flattenGroups r.createdTasks,
    if projectName.isSome then bucketD r.completedTasks (projectName.getD "")
      else flattenGroups r.completedTasks)

/-- C8: a review presented for a (nonempty) project name contains
exactly that project's sessions, created tasks and completed tasks from
the reviewed data, and when the project had no activity in range all
three parts are the empty list — the selection is total, not an error. -/
theorem printReview_project_scoped (p : String) (hp : p ≠ "") (ss : List Session)
    (created completed : List Task) :
    (printReviewModel
        { sessions := groupSessions ss, createdTasks := groupTasks created,
          completedTasks := groupTasks completed } (some p) =
      (ss.filter (fun s => s.projectName = p),
        created.filter (fun t => taskKey t = p),
        completed.filter (fun t => taskKey t = p))) ∧
    ((∀ s ∈ ss, s.projectName ≠ p) → (∀ t ∈ created, taskKey t ≠ p) →
      (∀ t ∈ completed, taskKey t ≠ p) →
      printReviewModel
        { sessions := groupSessions ss, createdTasks := groupTasks created,
          completedTasks := groupTasks completed } (some p) = ([], [], [])) := by
  have hmain : printReviewModel
      { sessions := groupSessions ss, createdTasks := groupTasks created,
        completedTasks := groupTasks completed } (some p) =
      (ss.filter (fun s => s.projectName = p),
        created.filter (fun t => taskKey t = p),
        completed.filter (fun t => taskKey t = p)) := by
    unfold printReviewModel groupSessions groupTasks
    simp only [strTruthy, hp, decide_not, Option.isSome_some, Option.getD_some, if_true]
    rw [bucketD_groupByKey, bucketD_groupByKey, bucketD_groupByKey]
    simp [hp]
  refine ⟨hmain, fun h1 h2 h3 => ?_⟩
  rw [hmain]
  have e1 : ss.filter (fun s => (s.projectName = p : Bool)) = [] :=
    List.filter_eq_nil_iff.mpr fun s hs => by simpa using h1 s hs
  have e2 : created.filter (fun t => (taskKey t = p : Bool)) = [] :=
    List.filter_eq_nil_iff.mpr fun t ht => by simpa using h2 t ht
  have e3 : completed.filter (fun t => (taskKey t = p : Bool)) = [] :=
    List.filter_eq_nil_iff.mpr fun t ht => by simpa using h3 t ht
  rw [e1, e2, e3]

/-- Witness for C8 at concrete data for projects "alpha" and "beta". -/
theorem printReview_project_scoped_witness :
    printReviewModel
      { sessions := groupSessions
          [{ id := "s1", projectName := "alpha", focus := "f",
             sessionStart := 0, sessionEnd := some 10 },
           { id := "s2", projectName := "beta", focus := "g",
             sessionStart := 5, sessionEnd := some 25 }]
        createdTasks := groupTasks
          [{ id := "t1", description := "d", isDone := false, created := 0,
             projectName := some "alpha", completed := none }]
        completedTasks := groupTasks [] } (some "alpha") =
      ([{ id := "s1", projectName := "alpha", focus := "f",
          sessionStart := 0, sessionEnd := some 10 }],
       [{ id := "t1", description := "d", isDone := false, created := 0,
          projectName := some "alpha", completed := none }],
       []) :=
  (printReview_project_scoped "alpha" (by decide) _ _ _).1.trans (by decide)

end Sentinel

namespace Sentinel

/-- The per-task membership facts of C1: the id occurs in `all` exactly
once, in `incomplete` iff not done, in `inbox` iff no project, and in
`byCompletionDate[d]` iff `completed` is set and normalizes to `d`. -/
def taskOk (dayOf : Int → String) (idx : TaskIndex) (t : Task) : Prop :=
  idx.all.count t.id = 1 ∧
  (t.id ∈ idx.incomplete ↔ t.isDone = false) ∧
  (t.id ∈ idx.inbox ↔ t.projectName = none) ∧
  (∀ d, t.id ∈ idx.byCompletionDate d ↔ t.completed.map dayOf = some d)

theorem fresh_taskOk {dayOf : Int → String} {t : Task} {idx : TaskIndex}
    (hfresh : ¬ memTaskIndex idx t.id) : taskOk dayOf (indexTask dayOf t idx) t := by
  have hall : t.id ∉ idx.all := fun h => hfresh (.inl h)
  have hinbox : t.id ∉ idx.inbox := fun h => hfresh (.inr (.inl h))
  have hinc : t.id ∉ idx.incomplete := fun h => hfresh (.inr (.inr (.inl h)))
  have hcompl : ∀ d, t.id ∉ idx.byCompletionDate d := fun d h =>
    hfresh (.inr (.inr (.inr (.inr (.inr ⟨d, h⟩)))))
  refine ⟨?_, ?_, ?_, ?_⟩
  · show (t.id :: idx.all).count t.id = 1
    simp [List.count_cons_self, List.count_eq_zero.mpr hall]
  · cases hd : t.isDone <;> simp [indexTask, hd, hinc]
  · rcases hp : t.projectName with _ | p <;> simp [indexTask, hp, hinbox]
  · intro d
    rcases hc : t.completed with _ | c
    · simp [indexTask, hc, hcompl d]
    · by_cases hdc : d = dayOf c
      · simp [indexTask, hc, hdc]
      · have hdc' : ¬ dayOf c = d := fun h => hdc h.symm
        simp [indexTask, hc, hdc, hcompl d, hdc']

theorem other_taskOk_index {dayOf : Int → String} {t s : Task} {idx : TaskIndex}
    (hne : s.id ≠ t.id) (hok : taskOk dayOf idx s) :
    taskOk dayOf (indexTask dayOf t idx) s := by
  obtain ⟨h1, h2, h3, h4⟩ := hok
  refine ⟨?_, ?_, ?_, ?_⟩
  · show (t.id :: idx.all).count s.id = 1
    rw [List.count_cons_of_ne hne, h1]
  · cases hd : t.isDone <;> simp [indexTask, hd, hne, h2]
  · rcases hp : t.projectName with _ | p <;> simp [indexTask, hp, hne, h3]
  · intro d
    rcases hc : t.completed with _ | c
    · simp [indexTask, hc, h4 d]
    · show s.id ∈ (match t.completed with
        | some c => if d = dayOf c then t.id :: idx.byCompletionDate d
            else idx.byCompletionDate d
        | none => idx.byCompletionDate d) ↔ _
      rw [hc]
      show s.id ∈ (if d = dayOf c then t.id :: idx.byCompletionDate d
        else idx.byCompletionDate d) ↔ _
      by_cases hdc : d = dayOf c
      · rw [if_pos hdc, List.mem_cons]
        simp only [hne, false_or]
        exact h4 d
      · rw [if_neg hdc]
        exact h4 d

theorem mem_without_of_ne {l : List String} {i j : String} (h : i ≠ j) :
    i ∈ without l j ↔ i ∈ l := by
  simp [without, h]

theorem count_without_of_ne {l : List String} {i j : String} (h : i ≠ j) :
    (without l j).count i = l.count i := by
  unfold without
  rw [List.count_filter (by simpa using h)]

theorem other_taskOk_deindex {dayOf : Int → String} {t s : Task} {idx : TaskIndex}
    (hne : s.id ≠ t.id) (hok : taskOk dayOf idx s) :
    taskOk dayOf (deindexTask t idx) s := by
  obtain ⟨h1, h2, h3, h4⟩ := hok
  refine ⟨?_, ?_, ?_, fun d => ?_⟩
  · show (without idx.all t.id).count s.id = 1
    rw [count_without_of_ne hne, h1]
  · show s.id ∈ without idx.incomplete t.id ↔ _
    rw [mem_without_of_ne hne]
    exact h2
  · show s.id ∈ without idx.inbox t.id ↔ _
    rw [mem_without_of_ne hne]
    exact h3
  · show s.id ∈ without (idx.byCompletionDate d) t.id ↔ _
    rw [mem_without_of_ne hne]
    exact h4 d

end Sentinel

namespace Sentinel

/-- Inductive invariant tying the record set to the task index: record
ids are distinct, every id occurring anywhere in the index belongs to a
record, and every record satisfies its membership facts. -/
def TaskInv (dayOf : Int → String) (records : List Task) (idx : TaskIndex) : Prop :=
  (records.map Task.id).Nodup ∧
  (∀ i, memTaskIndex idx i → i ∈ records.map Task.id) ∧
  (∀ t ∈ records, taskOk dayOf idx t)

/-- The record/index states reachable through the indexing operations:
the empty initial state; `indexNewTask` on creation of a fresh task
(`saveTask` creates with `isDone = false` and no `completed`); and
`reindexTask` (deindex followed by index) on toggling a stored task. -/
inductive Reach (dayOf : Int → String) : List Task → TaskIndex → Prop where
  | init : Reach dayOf [] emptyTaskIndex
  | create (t : Task) (records : List Task) (idx : TaskIndex) :
      Reach dayOf records idx → t.isDone = false → t.completed = none →
      t.id ∉ records.map Task.id →
      Reach dayOf (t :: records) (indexTask dayOf t idx)
  | toggle (pre post : List Task) (t : Task) (now : Int) (idx : TaskIndex) :
      Reach dayOf (pre ++ t :: post) idx →
      Reach dayOf (pre ++ toggleTask now t :: post)
        (reindexTask dayOf (toggleTask now t) idx)

theorem taskInv_create {dayOf : Int → String} {t : Task} {records : List Task}
    {idx : TaskIndex} (hinv : TaskInv dayOf records idx)
    (ht : t.id ∉ records.map Task.id) :
    TaskInv dayOf (t :: records) (indexTask dayOf t idx) := by
  obtain ⟨hnd, hcl, hok⟩ := hinv
  have hfresh : ¬ memTaskIndex idx t.id := fun hm => ht (hcl _ hm)
  refine ⟨?_, ?_, ?_⟩
  · simp only [List.map_cons, List.nodup_cons]
    exact ⟨ht, hnd⟩
  · intro i hm
    rcases memTaskIndex_indexTask hm with rfl | hm
    · simp
    · simp [hcl i hm]
  · intro s hs
    rcases List.mem_cons.mp hs with rfl | hs
    · exact fresh_taskOk hfresh
    · have hne : s.id ≠ t.id := fun h => ht (h ▸ List.mem_map.mpr ⟨s, hs, rfl⟩)
      exact other_taskOk_index hne (hok s hs)

theorem ne_id_of_nodup_middle {pre post : List Task} {t s : Task}
    (hnd : ((pre ++ t :: post).map Task.id).Nodup) (hs : s ∈ pre ∨ s ∈ post) :
    s.id ≠ t.id := by
  rw [List.map_append, List.map_cons, List.nodup_append] at hnd
  obtain ⟨hnd₁, hnd₂, hdisj⟩ := hnd
  rcases hs with hs | hs
  · intro h
    exact hdisj (List.mem_map.mpr ⟨s, hs, rfl⟩) (h ▸ List.mem_cons_self _ _)
  · intro h
    exact (List.nodup_cons.mp hnd₂).1 (h ▸ List.mem_map.mpr ⟨s, hs, rfl⟩)

theorem taskInv_toggle {dayOf : Int → String} {pre post : List Task} {t t' : Task}
    {idx : TaskIndex} (hinv : TaskInv dayOf (pre ++ t :: post) idx)
    (hid : t'.id = t.id) :
    TaskInv dayOf (pre ++ t' :: post) (reindexTask dayOf t' idx) := by
  obtain ⟨hnd, hcl, hok⟩ := hinv
  have hmap : (pre ++ t' :: post).map Task.id = (pre ++ t :: post).map Task.id := by
    simp [hid]
  refine ⟨?_, ?_, ?_⟩
  · rw [hmap]
    exact hnd
  · intro i hm
    rw [hmap]
    rcases memTaskIndex_indexTask hm with rfl | hm'
    · rw [hid]
      simp
    · exact hcl i (memTaskIndex_deindexTask hm')
  · intro s hs
    rw [List.mem_append, List.mem_cons] at hs
    rcases hs with hs | rfl | hs
    · have hne : s.id ≠ t.id := ne_id_of_nodup_middle hnd (.inl hs)
      exact other_taskOk_index (hid ▸ hne)
        (other_taskOk_deindex (hid ▸ hne) (hok s (by simp [hs])))
    · exact fresh_taskOk (not_memTaskIndex_deindexTask s idx)
    · have hne : s.id ≠ t.id := ne_id_of_nodup_middle hnd (.inr hs)
      exact other_taskOk_index (hid ▸ hne)
        (other_taskOk_deindex (hid ▸ hne) (hok s (by simp [hs])))

theorem reach_taskInv {dayOf : Int → String} {records : List Task} {idx : TaskIndex}
    (h : Reach dayOf records idx) : TaskInv dayOf records idx := by
  induction h with
  | init =>
      refine ⟨by simp, ?_, by simp⟩
      intro i hm
      rcases hm with hm | hm | hm | ⟨k, hk⟩ | ⟨k, hk⟩ | ⟨k, hk⟩ <;>
        simp [emptyTaskIndex] at *
  | create t records idx _ _ _ hfresh ih => exact taskInv_create ih hfresh
  | toggle pre post t now idx _ ih => exact taskInv_toggle ih rfl

/-- C1: in every record/index state reachable through the indexing
operations (indexing a fresh task on creation, deindex-then-index on
toggle), every stored task's id occurs in `all` exactly once, is in
`incomplete` iff the task is not done, is in `inbox` iff it has no
project, and is in `byCompletionDate[d]` iff its `completed` stamp is
set and normalizes to the day key `d`. -/
theorem taskIndex_membership (dayOf : Int → String) (records : List Task)
    (idx : TaskIndex) (h : Reach dayOf records idx) (t : Task) (ht : t ∈ records) :
    idx.all.count t.id = 1 ∧
    (t.id ∈ idx.incomplete ↔ t.isDone = false) ∧
    (t.id ∈ idx.inbox ↔ t.projectName = none) ∧
    (∀ d, t.id ∈ idx.byCompletionDate d ↔ t.completed.map dayOf = some d) :=
  (reach_taskInv h).2.2 t ht

/-- Witness for C1: create one inbox task and toggle it done; in the
resulting index its id is counted once in `all`, absent from
`incomplete`, present in `inbox`, and present in its completion-day
bucket. -/
theorem taskIndex_membership_witness :
    ((reindexTask (fun _ => "day")
        (toggleTask 5 { id := "a", description := "d", isDone := false, created := 0, projectName := none, completed := none })
        (indexTask (fun _ => "day")
          { id := "a", description := "d", isDone := false, created := 0, projectName := none, completed := none }
          emptyTaskIndex)).all.count "a" = 1) ∧
    ("a" ∉ (reindexTask (fun _ => "day")
        (toggleTask 5 { id := "a", description := "d", isDone := false, created := 0, projectName := none, completed := none })
        (indexTask (fun _ => "day")
          { id := "a", description := "d", isDone := false, created := 0, projectName := none, completed := none }
          emptyTaskIndex)).incomplete) ∧
    ("a" ∈ (reindexTask (fun _ => "day")
        (toggleTask 5 { id := "a", description := "d", isDone := false, created := 0, projectName := none, completed := none })
        (indexTask (fun _ => "day")
          { id := "a", description := "d", isDone := false, created := 0, projectName := none, completed := none }
          emptyTaskIndex)).inbox) ∧
    ("a" ∈ (reindexTask (fun _ => "day")
        (toggleTask 5 { id := "a", description := "d", isDone := false, created := 0, projectName := none, completed := none })
        (indexTask (fun _ => "day")
          { id := "a", description := "d", isDone := false, created := 0, projectName := none, completed := none }
          emptyTaskIndex)).byCompletionDate "day") := by
  have h1 : Reach (fun _ => "day")
      [{ id := "a", description := "d", isDone := false, created := 0, projectName := none, completed := none }]
      (indexTask (fun _ => "day")
        { id := "a", description := "d", isDone := false, created := 0, projectName := none, completed := none }
        emptyTaskIndex) :=
    Reach.create _ [] emptyTaskIndex Reach.init rfl rfl (by simp)
  have h2 : Reach (fun _ => "day")
      ([] ++ toggleTask 5 { id := "a", description := "d", isDone := false, created := 0, projectName := none, completed := none } :: [])
      (reindexTask (fun _ => "day")
        (toggleTask 5 { id := "a", description := "d", isDone := false, created := 0, projectName := none, completed := none })
        (indexTask (fun _ => "day")
          { id := "a", description := "d", isDone := false, created := 0, projectName := none, completed := none }
          emptyTaskIndex)) :=
    Reach.toggle [] [] _ 5 _ h1
  have hmain := taskIndex_membership (fun _ => "day") _ _ h2 _ (List.mem_cons_self _ _)
  refine ⟨hmain.1, ?_, ?_, ?_⟩
  · intro hm
    exact absurd (hmain.2.1.mp hm) (by decide)
  · exact hmain.2.2.1.mpr rfl
  · exact (hmain.2.2.2 "day").mpr rfl

end Sentinel
